import Mathlib

/-!
Verification of the diskvm disk-analysis pipeline against its specification.

Each definition is a shallow embedding of the corresponding Python function
from the repository (file and symbol named in its doc comment).  Machine
integers are modelled as `Int`/`Nat` (Python integers are unbounded), file
paths as `String`, and fallible code returns `Except`/`Option`.
-/

namespace DiskVm

/-! ## Virtual-disk extent builder (`src/diskvm/vm/base.py`) -/

/-- One extent of the sparse virtual disk
(`VirtualDiskPart` dataclass, `src/diskvm/vm/base.py` lines 39-44).
`source_file = none` models Python `None` (a zero-fill region). -/
structure DiskPart where
  source_file : Option String
  length : Int
  source_offset : Int
  target_offset : Int
deriving DecidableEq, Repr

/-- Errors raised by `VirtualDiskBuilder.add_part`.  `attributeError` models the
Python `AttributeError` raised when `part.source_file` is `None` and the code
evaluates `part.source_file.is_file()`; `invalidDiskPart` models
`InvalidDiskPartError` with its message. -/
inductive AddPartError where
  | attributeError
  | invalidDiskPart (msg : String)
deriving DecidableEq, Repr

/-- Merge step of `add_part` for one existing extent `p` against the new
extent `part` (the `for p in list(self.disk_parts)` loop body,
`src/diskvm/vm/base.py` lines 70-102).  Returns the surviving in-place
extent (first component; `none` when `p` is removed) and the split-off tail
`p2` that the code appends to the end of the list (second component). -/
def mergePart (part p : DiskPart) : Option DiskPart × Option DiskPart :=
  if (p.target_offset < part.target_offset ∧ p.target_offset + p.length ≤ part.target_offset)
      ∨ (p.target_offset ≥ part.target_offset + part.length) then
    -- No overlapping areas
    (some p, none)
  else if p.target_offset ≥ part.target_offset
      ∧ p.target_offset + p.length ≤ part.target_offset + part.length then
    -- Completely replace part
    (none, none)
  else if p.target_offset < part.target_offset
      ∧ part.target_offset < p.target_offset + p.length
      ∧ p.target_offset + p.length ≤ part.target_offset + part.length then
    -- p's tail overlaps part's head
    let overlap_len := (p.target_offset + p.length) - part.target_offset
    (some { p with length := p.length - overlap_len }, none)
  else if part.target_offset < p.target_offset
      ∧ p.target_offset < part.target_offset + part.length
      ∧ part.target_offset + part.length < p.target_offset + p.length then
    -- p's head overlaps part's tail
    let overlap_len := (p.target_offset + p.length) - (part.target_offset + part.length)
    (some { p with target_offset := p.target_offset + overlap_len,
                   source_offset := p.source_offset + overlap_len,
                   length := p.length - overlap_len }, none)
  else if p.target_offset < part.target_offset
      ∧ p.target_offset + p.length > part.target_offset + part.length then
    -- part is strictly inside p: split p into head and tail p2
    let headLen := part.target_offset - p.target_offset
    (some { p with length := headLen },
     some { p with length := (p.target_offset + p.length) - (part.target_offset + part.length),
                   target_offset := part.target_offset + part.length,
                   source_offset := p.source_offset + headLen + part.length })
  else
    (some p, none)

/-- Stable insertion of a part into a list sorted by `target_offset`
(helper for the model of Python's stable `list.sort(key=...)`). -/
def insertPart (p : DiskPart) : List DiskPart → List DiskPart
  | [] => [p]
  | q :: qs =>
    if q.target_offset < p.target_offset then q :: insertPart p qs else p :: q :: qs

/-- Model of `self.disk_parts.sort(key=lambda p: p.target_offset)`
(stable sort by `target_offset`, `src/diskvm/vm/base.py` line 105). -/
def sortByTarget : List DiskPart → List DiskPart
  | [] => []
  | a :: rest => insertPart a (sortByTarget rest)

/-- `VirtualDiskBuilder.add_part` (`src/diskvm/vm/base.py` lines 60-105).
`fs f` models `Path(f).is_file() or Path(f).is_block_device()`;
`sector_size` is the builder's sector size; `disk_parts` the current extent
list.  A `None` source file makes the Python code evaluate
`None.is_file()`, raising `AttributeError`. -/
def addPart (fs : String → Bool) (sector_size : Int)
    (disk_parts : List DiskPart) (part : DiskPart) :
    Except AddPartError (List DiskPart) :=
  match part.source_file with
  | none => .error .attributeError
  | some f =>
    if ¬ fs f then
      .error (.invalidDiskPart "Invalid file")
    else if part.target_offset % sector_size ≠ 0
        ∨ (part.target_offset + part.length) % sector_size ≠ 0 then
      .error (.invalidDiskPart "Not aligned to sectors")
    else
      let kept := disk_parts.filterMap (fun p => (mergePart part p).1)
      let tails := disk_parts.filterMap (fun p => (mergePart part p).2)
      .ok (sortByTarget (kept ++ tails ++ [part]))

/-- Fold a sequence of `add_part` calls over a fresh builder's extent list. -/
def runAdds (fs : String → Bool) (sector_size : Int) (parts : List DiskPart) :
    Except AddPartError (List DiskPart) :=
  parts.foldlM (addPart fs sector_size) []

/-- Half-open target ranges of two extents do not intersect. -/
def targetDisjoint (a b : DiskPart) : Prop :=
  a.target_offset + a.length ≤ b.target_offset ∨
  b.target_offset + b.length ≤ a.target_offset

instance : DecidableRel targetDisjoint := fun a b => by
  unfold targetDisjoint; infer_instance

/-- The extents of a list are pairwise non-overlapping as target ranges. -/
def pairwiseDisjoint (l : List DiskPart) : Prop :=
  List.Pairwise targetDisjoint l

instance (l : List DiskPart) : Decidable (pairwiseDisjoint l) := by
  unfold pairwiseDisjoint; infer_instance

/-- The byte mapping denoted by an extent list: the source (file and source
offset) assigned to a target byte offset by the last extent in the list
covering it. -/
def denoteAt (l : List DiskPart) (off : Int) : Option (Option String × Int) :=
  (l.reverse.find? (fun p =>
      decide (p.target_offset ≤ off ∧ off < p.target_offset + p.length))).map
    (fun p => (p.source_file, p.source_offset + (off - p.target_offset)))

/-- A part satisfying `add_part`'s documented precondition: an existing
source file (or block device) and sector-aligned target range. -/
def validPart (fs : String → Bool) (sector_size : Int) (p : DiskPart) : Prop :=
  (∃ f, p.source_file = some f ∧ fs f = true) ∧
  p.target_offset % sector_size = 0 ∧
  (p.target_offset + p.length) % sector_size = 0

/-! ## Plugin host (`src/diskvm/plugins/base.py`) -/

/-- Result of a plugin's `mount` hook:
`none` (Python `None`), a filesystem path, a single child volume, or a list
of child volumes (volumes identified abstractly by `Nat`). -/
inductive MountResult where
  | noResult
  | path (p : String)
  | vol (v : Nat)
  | vols (vs : List Nat)
deriving DecidableEq, Repr

/-- Python truthiness of a `mount` hook result: `None` is falsy, a `Path` or
`VolumeInfo` object is always truthy, a list is truthy iff non-empty. -/
def MountResult.truthy : MountResult → Bool
  | .noResult => false
  | .path _ => true
  | .vol _ => true
  | .vols vs => !vs.isEmpty

/-- `PluginManager.dispatch_until_result` (`src/diskvm/plugins/base.py`
lines 87-93): walk the hook results of the ordered plugin list, return the
first result that is truthy (`if res := cb(**kwargs)`), else Python `None`.
Also returns how many plugin hooks were invoked. -/
def dispatchUntilResult : List MountResult → MountResult × Nat
  | [] => (.noResult, 0)
  | r :: rs =>
    if r.truthy then (r, 1)
    else
      let rest := dispatchUntilResult rs
      (rest.1, rest.2 + 1)

/-! ## Teardown ordering
(`DiskVmCreator.unmount_partitions_and_filesystems`, `src/diskvm/runner.py`
lines 138-163, and `groupby`, `src/diskvm/utils.py` lines 32-33) -/

/-- A volume with its parent link and whether `filesystem_mount` /
`flat_mount` are set (and exist), the only data teardown consults. -/
inductive VolNode where
  | mk (parent : Option VolNode) (hasFsMount : Bool) (hasFlatMount : Bool)

/-- `volume_depth` (`src/diskvm/runner.py` lines 139-140):
0 for a root volume, one more than the parent's depth otherwise. -/
def volumeDepth : VolNode → Nat
  | .mk none _ _ => 0
  | .mk (some p) _ _ => 1 + volumeDepth p

def VolNode.hasFs : VolNode → Bool
  | .mk _ fs _ => fs

def VolNode.hasFlat : VolNode → Bool
  | .mk _ _ fl => fl

/-- Stable insertion for descending sort by a `Nat` key
(model of Python's stable `sorted(..., reverse=True)`). -/
def insertDescBy (key : α → Nat) (a : α) : List α → List α
  | [] => [a]
  | q :: qs =>
    if key a < key q then q :: insertDescBy key a qs else a :: q :: qs

/-- `sorted(lst, key=key, reverse=True)`: stable descending sort. -/
def sortDescBy (key : α → Nat) : List α → List α
  | [] => []
  | a :: rest => insertDescBy key a (sortDescBy key rest)

/-- `itertools.groupby`: group consecutive elements with equal key. -/
def groupRuns (key : α → Nat) : List α → List (Nat × List α)
  | [] => []
  | a :: rest =>
    match groupRuns key rest with
    | [] => [(key a, [a])]
    | (k, g) :: gs =>
      if key a = k then (k, a :: g) :: gs else (key a, [a]) :: (k, g) :: gs

/-- `diskvm.utils.groupby(lst, key, reverse=True)`: sort descending by key
(stably), then group consecutive equal keys. -/
def groupbyDesc (key : α → Nat) (lst : List α) : List (Nat × List α) :=
  groupRuns key (sortDescBy key lst)

/-- One teardown dispatch: `unmount_filesystem` or `unmount_volume` for a
given volume. -/
inductive UnmountEvent where
  | unmountFilesystem (v : VolNode)
  | unmountVolume (v : VolNode)

/-- The volume a teardown dispatch is for. -/
def UnmountEvent.vol : UnmountEvent → VolNode
  | .unmountFilesystem v => v
  | .unmountVolume v => v

/-- The sequence of teardown dispatches issued by
`DiskVmCreator.unmount_partitions_and_filesystems`
(`src/diskvm/runner.py` lines 138-163): volumes are grouped by depth in
decreasing order; within one depth group all `unmount_filesystem`
dispatches happen first, then all `unmount_volume` dispatches. -/
def unmountEvents (volumes : List VolNode) : List UnmountEvent :=
  (groupbyDesc volumeDepth volumes).flatMap fun g =>
    (g.2.filter (·.hasFs)).map UnmountEvent.unmountFilesystem ++
    (g.2.filter (·.hasFlat)).map UnmountEvent.unmountVolume

/-! ## Binary-structure helper and the VeraCrypt header
(`src/diskvm/structure.py` lines 45-51, `src/diskvm/plugins/veracrypt.py`
lines 35-55) -/

/-- Big-endian value of a byte list (`struct.unpack` of an unsigned field). -/
def beVal (l : List Nat) : Nat := l.foldl (fun a b => a * 256 + b) 0

/-- Big-endian encoding of `n` on `w` bytes (`struct.pack` of an unsigned
field whose range check already passed). -/
def beBytes : Nat → Nat → List Nat
  | 0, _ => []
  | w + 1, n => beBytes w (n / 256) ++ [n % 256]

/-- `struct.pack` of an `Ns` field: truncate to `size` bytes and pad with
zero bytes. -/
def packBytes (size : Nat) (b : List Nat) : List Nat :=
  b.take size ++ List.replicate (size - b.length) 0

/-- The `VeraCryptHeader` dataclass (`src/diskvm/plugins/veracrypt.py`
lines 35-55): a big-endian `Structure` with format
`>4sHHI16sQQQQII120sI256s` (packed size 448). Byte-string fields are lists
of byte values, integer fields unbounded naturals (Python ints). -/
structure VeraCryptHeader where
  signature : List Nat
  header_format_version : Nat
  min_program_version : Nat
  checksum_master_keys : Nat
  reserved1 : List Nat
  size_hidden_volume : Nat
  size_volume : Nat
  offset : Nat
  size_encrypted : Nat
  flags : Nat
  sector_size : Nat
  reserved2 : List Nat
  checksum_header_fields : Nat
  master_keys : List Nat
deriving DecidableEq, Repr

namespace VeraCryptHeader

/-- `Structure.pack` (`src/diskvm/structure.py` lines 45-46) for the
VeraCrypt header: concatenate the big-endian encodings of the fields.
`struct.pack` raises when an integer field is out of range, hence the
guard (`H` < 2^16, `I` < 2^32, `Q` < 2^64). -/
def pack (h : VeraCryptHeader) : Option (List Nat) :=
  if h.header_format_version < 2 ^ 16 ∧ h.min_program_version < 2 ^ 16
      ∧ h.checksum_master_keys < 2 ^ 32
      ∧ h.size_hidden_volume < 2 ^ 64 ∧ h.size_volume < 2 ^ 64
      ∧ h.offset < 2 ^ 64 ∧ h.size_encrypted < 2 ^ 64
      ∧ h.flags < 2 ^ 32 ∧ h.sector_size < 2 ^ 32
      ∧ h.checksum_header_fields < 2 ^ 32 then
    some (packBytes 4 h.signature
      ++ beBytes 2 h.header_format_version
      ++ beBytes 2 h.min_program_version
      ++ beBytes 4 h.checksum_master_keys
      ++ packBytes 16 h.reserved1
      ++ beBytes 8 h.size_hidden_volume
      ++ beBytes 8 h.size_volume
      ++ beBytes 8 h.offset
      ++ beBytes 8 h.size_encrypted
      ++ beBytes 4 h.flags
      ++ beBytes 4 h.sector_size
      ++ packBytes 120 h.reserved2
      ++ beBytes 4 h.checksum_header_fields
      ++ packBytes 256 h.master_keys)
  else none

/-- `Structure.unpack` (`src/diskvm/structure.py` lines 48-51) for the
VeraCrypt header: `struct.unpack` raises unless the data has exactly the
packed size (448 bytes); otherwise it splits the bytes at the field
offsets. -/
def unpack (x : List Nat) : Option VeraCryptHeader :=
  if x.length = 448 then
    some {
      signature := (x.drop 0).take 4
      header_format_version := beVal ((x.drop 4).take 2)
      min_program_version := beVal ((x.drop 6).take 2)
      checksum_master_keys := beVal ((x.drop 8).take 4)
      reserved1 := (x.drop 12).take 16
      size_hidden_volume := beVal ((x.drop 28).take 8)
      size_volume := beVal ((x.drop 36).take 8)
      offset := beVal ((x.drop 44).take 8)
      size_encrypted := beVal ((x.drop 52).take 8)
      flags := beVal ((x.drop 60).take 4)
      sector_size := beVal ((x.drop 64).take 4)
      reserved2 := (x.drop 68).take 120
      checksum_header_fields := beVal ((x.drop 188).take 4)
      master_keys := (x.drop 192).take 256 }
  else none

end VeraCryptHeader

/-! ## `/etc/shadow` password reset
(`EtcShadowBlankPasswords.modify_filesystem`,
`src/diskvm/plugins/password_bypass.py` lines 125-136) -/

/-- The per-line loop body: `e` is one line split on `':'`;
`if len(e) >= 2 and e[1] not in ['!', '*']: e[1] = self.hash_password(...)`.
`hash` stands for the SHA-256 crypt string produced by
`crypt.crypt(NEW_PASSWORD, crypt.METHOD_SHA256)` (randomly salted, hence a
parameter). -/
def shadowProcessEntry (hash : String) (e : List String) : List String :=
  match e with
  | u :: p :: rest => if p ≠ "!" ∧ p ≠ "*" then u :: hash :: rest else u :: p :: rest
  | _ => e

/-- `EtcShadowBlankPasswords.modify_filesystem` body
(`src/diskvm/plugins/password_bypass.py` lines 130-136) on the `entries`
list: the file content is
`entries = [l.split(':') for l in etc_shadow.read_text().splitlines()]`
(each line as its `':'`-separated fields), the loop applies
`shadowProcessEntry` to every line, and the result is written back as
`'\n'.join(':'.join(l) for l in entries)`. -/
def shadowModifyLines (hash : String) (entries : List (List String)) :
    List (List String) :=
  entries.map (shadowProcessEntry hash)

/-! ## XTS key combination (`src/main.py` lines 74-80) -/

/-- The key-combination step of `main`:
`master_keys |= set(map(lambda t: t[0] + t[1],
filter(lambda t: len(t[0]) == len(t[1]), permutations(master_keys, 2))))`.
`itertools.permutations(s, 2)` yields ordered pairs of distinct elements of
the set `s`.  Keys are byte strings, modelled as `List Nat`. -/
def combineXtsKeys (master_keys : Finset (List Nat)) : Finset (List Nat) :=
  master_keys ∪
    ((master_keys ×ˢ master_keys).filter
        (fun t => t.1 ≠ t.2 ∧ t.1.length = t.2.length)).image
      (fun t => t.1 ++ t.2)

/-! ## Read-only dispatch discipline of the analysis pipeline
(`src/diskvm/runner.py`: `mount_disk` lines 92-107, `_add_partition_info`
lines 165-181, `_mount_filesystems` lines 207-239) -/

/-- The plugin hooks the runner dispatches during disk analysis. -/
inductive Hook where
  | mountedDisk
  | modifyDisk
  | mountedVolume
  | modifyVolume
  | mountHook
  | mountedFilesystem
  | modifyFilesystem
deriving DecidableEq, Repr

/-- Outcome of the first-truthy `mount` dispatch for one volume, as consumed
by `_mount_filesystems`: a filesystem path, a list of child volumes (each
`Bool` is the child's `flat_mount` presence), or no result. -/
inductive MountOutcome where
  | fsPath
  | children (cs : List Bool)
  | noOutcome

/-- Hook dispatches of `DiskVmCreator.mount_disk`
(`src/diskvm/runner.py` lines 92-107): `mounted_disk` always, then
`modify_disk` only when the disk is not read-only. -/
def mountDiskTrace (readonly : Bool) : List Hook :=
  Hook.mountedDisk :: (if readonly then [] else [Hook.modifyDisk])

/-- Hook dispatches of `_add_partition_info` over the partitions of a disk
(`src/diskvm/runner.py` lines 165-181): per partition `mounted_volume`,
plus `modify_volume` only when the disk is not read-only. -/
def mountPartitionsTrace (readonly : Bool) (numPartitions : Nat) : List Hook :=
  (List.range numPartitions).flatMap fun _ =>
    Hook.mountedVolume :: (if readonly then [] else [Hook.modifyVolume])

/-- Hook dispatches of the `_mount_filesystems` walk
(`src/diskvm/runner.py` lines 207-239): index-based iteration over the
growing volume list; for a volume with a `flat_mount` dispatch `mount`
(first-truthy), then depending on its outcome dispatch
`mounted_filesystem` (+ `modify_filesystem` when writable) or, per
discovered child volume, `mounted_volume` (+ `modify_volume` when
writable), appending the children to the walked list.  `fuel` bounds the
loop (the Python loop runs as long as the list keeps growing). -/
def mountFilesystemsTrace (readonly : Bool) (resp : Nat → MountOutcome) :
    Nat → Nat → List Bool → List Hook
  | 0, _, _ => []
  | fuel + 1, idx, vols =>
    if h : idx < vols.length then
      if vols.get ⟨idx, h⟩ then
        match resp idx with
        | .fsPath =>
          (Hook.mountHook :: Hook.mountedFilesystem ::
            (if readonly then [] else [Hook.modifyFilesystem]))
            ++ mountFilesystemsTrace readonly resp fuel (idx + 1) vols
        | .children cs =>
          (Hook.mountHook ::
            cs.flatMap (fun _ =>
              Hook.mountedVolume :: (if readonly then [] else [Hook.modifyVolume])))
            ++ mountFilesystemsTrace readonly resp fuel (idx + 1) (vols ++ cs)
        | .noOutcome =>
          Hook.mountHook :: mountFilesystemsTrace readonly resp fuel (idx + 1) vols
      else
        mountFilesystemsTrace readonly resp fuel (idx + 1) vols
    else []

/-- All hook dispatches of one disk's analysis:
`mount_disk` (or the read-only `mount_disk_image`), then `_mount_partitions`
via `_add_partition_info`, then `_mount_filesystems`.  Teardown
(`unmount_partitions_and_filesystems`) dispatches only `unmount_filesystem`
and `unmount_volume` and is modelled by `unmountEvents`. -/
def diskAnalysisTrace (readonly : Bool) (resp : Nat → MountOutcome)
    (numPartitions fuel : Nat) : List Hook :=
  mountDiskTrace readonly
    ++ mountPartitionsTrace readonly numPartitions
    ++ mountFilesystemsTrace readonly resp fuel 0 (List.replicate numPartitions true)

/-! # Theorems -/

/-! ## Extent-builder lemmas -/

theorem insertPart_perm (p : DiskPart) (l : List DiskPart) :
    List.Perm (insertPart p l) (p :: l) := by
  induction l with
  | nil => exact List.Perm.refl _
  | cons q qs ih =>
    simp only [insertPart]
    split
    · exact (ih.cons q).trans (List.Perm.swap p q qs)
    · exact List.Perm.refl _

theorem mem_insertPart {x p : DiskPart} {l : List DiskPart} :
    x ∈ insertPart p l ↔ x = p ∨ x ∈ l := by
  rw [(insertPart_perm p l).mem_iff, List.mem_cons]

theorem insertPart_pairwise_le (p : DiskPart) {l : List DiskPart}
    (hl : l.Pairwise (fun a b => a.target_offset ≤ b.target_offset)) :
    (insertPart p l).Pairwise (fun a b => a.target_offset ≤ b.target_offset) := by
  induction l with
  | nil => exact List.pairwise_singleton _ _
  | cons q qs ih =>
    rcases List.pairwise_cons.mp hl with ⟨hq, hqs⟩
    simp only [insertPart]
    split
    · rename_i hlt
      refine List.pairwise_cons.mpr ⟨?_, ih hqs⟩
      intro x hx
      rcases mem_insertPart.mp hx with rfl | hx
      · exact le_of_lt hlt
      · exact hq x hx
    · rename_i hnlt
      refine List.pairwise_cons.mpr ⟨?_, hl⟩
      intro x hx
      rcases List.mem_cons.mp hx with rfl | hx
      · exact le_of_not_lt hnlt
      · exact le_trans (le_of_not_lt hnlt) (hq x hx)

theorem sortByTarget_perm (l : List DiskPart) : List.Perm (sortByTarget l) l := by
  induction l with
  | nil => rfl
  | cons a rest ih =>
    exact (insertPart_perm a (sortByTarget rest)).trans (ih.cons a)

theorem sortByTarget_pairwise_le (l : List DiskPart) :
    (sortByTarget l).Pairwise (fun a b => a.target_offset ≤ b.target_offset) := by
  induction l with
  | nil => exact List.Pairwise.nil
  | cons a rest ih => exact insertPart_pairwise_le a ih

theorem sortByTarget_eq_of_pairwise_le {l : List DiskPart}
    (hl : l.Pairwise (fun a b => a.target_offset ≤ b.target_offset)) :
    sortByTarget l = l := by
  induction l with
  | nil => rfl
  | cons a rest ih =>
    rcases List.pairwise_cons.mp hl with ⟨ha, hrest⟩
    simp only [sortByTarget, ih hrest]
    cases rest with
    | nil => rfl
    | cons q qs =>
      simp only [insertPart, if_neg (not_lt.mpr (ha q (List.mem_cons_self q qs)))]

/-- Two lists that are permutations of each other, have pairwise-distinct
target offsets, and both sort to themselves, sort to the same list. -/
theorem sortByTarget_eq_of_perm {l₁ l₂ : List DiskPart} (h : List.Perm l₁ l₂)
    (hne : l₁.Pairwise (fun a b => a.target_offset ≠ b.target_offset)) :
    sortByTarget l₁ = sortByTarget l₂ := by
  have hsymm : ∀ {x y : DiskPart},
      x.target_offset ≠ y.target_offset → y.target_offset ≠ x.target_offset :=
    fun hab => Ne.symm hab
  have hperm : List.Perm (sortByTarget l₁) (sortByTarget l₂) :=
    (sortByTarget_perm l₁).trans (h.trans (sortByTarget_perm l₂).symm)
  have hne₁ : (sortByTarget l₁).Pairwise (fun a b => a.target_offset ≠ b.target_offset) :=
    ((sortByTarget_perm l₁).pairwise_iff hsymm).mpr hne
  have hne₂ : (sortByTarget l₂).Pairwise (fun a b => a.target_offset ≠ b.target_offset) :=
    (hperm.pairwise_iff hsymm).mp hne₁
  have hlt₁ := ((sortByTarget_pairwise_le l₁).and hne₁).imp
    (fun hab => lt_of_le_of_ne hab.1 hab.2)
  have hlt₂ := ((sortByTarget_pairwise_le l₂).and hne₂).imp
    (fun hab => lt_of_le_of_ne hab.1 hab.2)
  haveI : IsAntisymm DiskPart (fun a b => a.target_offset < b.target_offset) :=
    ⟨fun a b h1 h2 => absurd (h1.trans h2) (lt_irrefl _)⟩
  exact List.eq_of_perm_of_sorted hperm hlt₁ hlt₂

theorem mergePart_of_disjoint {part p : DiskPart} (hd : targetDisjoint part p)
    (hp : 0 < p.length) : mergePart part p = (some p, none) := by
  have hcond : (p.target_offset < part.target_offset
      ∧ p.target_offset + p.length ≤ part.target_offset)
      ∨ (p.target_offset ≥ part.target_offset + part.length) := by
    rcases hd with h | h
    · exact Or.inr h
    · exact Or.inl ⟨lt_of_lt_of_le (lt_add_of_pos_right _ hp) h, h⟩
  simp only [mergePart, if_pos hcond]

theorem filterMap_self_of_forall {α : Type _} {f : α → Option α} :
    ∀ {l : List α}, (∀ a ∈ l, f a = some a) → l.filterMap f = l
  | [], _ => rfl
  | a :: l, h => by
    rw [List.filterMap_cons, h a (List.mem_cons_self a l),
      filterMap_self_of_forall (fun b hb => h b (List.mem_cons_of_mem a hb))]

theorem filterMap_nil_of_forall {α β : Type _} {f : α → Option β} :
    ∀ {l : List α}, (∀ a ∈ l, f a = none) → l.filterMap f = []
  | [], _ => rfl
  | a :: l, h => by
    rw [List.filterMap_cons, h a (List.mem_cons_self a l),
      filterMap_nil_of_forall (fun b hb => h b (List.mem_cons_of_mem a hb))]

/-- `add_part` of an extent whose target range is disjoint from every
existing extent keeps the list and inserts the new extent in sorted
position. -/
theorem addPart_of_disjoint {fs : String → Bool} {ss : Int} {L : List DiskPart}
    {part : DiskPart} (hv : validPart fs ss part)
    (hd : ∀ p ∈ L, targetDisjoint part p) (hpos : ∀ p ∈ L, 0 < p.length) :
    addPart fs ss L part = .ok (sortByTarget (L ++ [part])) := by
  obtain ⟨⟨f, hsf, hfs⟩, ha1, ha2⟩ := hv
  have hkeep : ∀ p ∈ L, (mergePart part p).1 = some p := fun p hp => by
    rw [mergePart_of_disjoint (hd p hp) (hpos p hp)]
  have htail : ∀ p ∈ L, (mergePart part p).2 = none := fun p hp => by
    rw [mergePart_of_disjoint (hd p hp) (hpos p hp)]
  simp only [addPart, hsf, hfs, Bool.not_true, not_false_eq_true, ha1, ha2,
    if_neg, or_self, ite_false, ite_true]
  rw [filterMap_self_of_forall hkeep, filterMap_nil_of_forall htail]
  simp

theorem targetDisjoint_symm {a b : DiskPart} (h : targetDisjoint a b) :
    targetDisjoint b a := h.symm

/-- Extents with disjoint target ranges and positive lengths have distinct
target offsets. -/
theorem targetDisjoint_ne {a b : DiskPart} (h : targetDisjoint a b)
    (ha : 0 < a.length) (hb : 0 < b.length) :
    a.target_offset ≠ b.target_offset := by
  rcases h with h | h <;> intro he <;> omega

/-- Folding `add_part` over pairwise-disjoint valid extents produces the
sorted list of all of them. -/
theorem foldlM_addPart_disjoint (fs : String → Bool) (ss : Int) :
    ∀ (rest L : List DiskPart),
      (∀ p ∈ rest, validPart fs ss p) →
      (∀ p ∈ L ++ rest, 0 < p.length) →
      (L ++ rest).Pairwise targetDisjoint →
      L.Pairwise (fun a b => a.target_offset ≤ b.target_offset) →
      List.foldlM (addPart fs ss) L rest = .ok (sortByTarget (L ++ rest)) := by
  intro rest
  induction rest with
  | nil =>
    intro L _ hpos hd hsorted
    rw [List.foldlM_nil, List.append_nil, sortByTarget_eq_of_pairwise_le hsorted]
    rfl
  | cons r rest ih =>
    intro L hv hpos hd hsorted
    have hdL : ∀ p ∈ L, targetDisjoint r p := fun p hp =>
      targetDisjoint_symm
        ((List.pairwise_append.mp hd).2.2 p hp r (List.mem_cons_self r rest))
    have hposL : ∀ p ∈ L, 0 < p.length := fun p hp =>
      hpos p (List.mem_append_left _ hp)
    have hadd := addPart_of_disjoint (hv r (List.mem_cons_self r rest)) hdL hposL
    rw [List.foldlM_cons, hadd]
    show List.foldlM (addPart fs ss) (sortByTarget (L ++ [r])) rest
      = .ok (sortByTarget (L ++ r :: rest))
    have hpermFull : List.Perm (sortByTarget (L ++ [r]) ++ rest) (L ++ r :: rest) := by
      have h1 : List.Perm (sortByTarget (L ++ [r]) ++ rest) ((L ++ [r]) ++ rest) :=
        (sortByTarget_perm (L ++ [r])).append_right rest
      rwa [List.append_assoc, List.singleton_append] at h1
    have hsymm : ∀ {x y : DiskPart}, targetDisjoint x y → targetDisjoint y x :=
      fun h => targetDisjoint_symm h
    have hd' : (sortByTarget (L ++ [r]) ++ rest).Pairwise targetDisjoint :=
      (hpermFull.pairwise_iff hsymm).mpr hd
    have hpos' : ∀ p ∈ sortByTarget (L ++ [r]) ++ rest, 0 < p.length :=
      fun p hp => hpos p (hpermFull.subset hp)
    have hv' : ∀ p ∈ rest, validPart fs ss p :=
      fun p hp => hv p (List.mem_cons_of_mem r hp)
    rw [ih (sortByTarget (L ++ [r])) hv' hpos' hd' (sortByTarget_pairwise_le _)]
    have hne : (sortByTarget (L ++ [r]) ++ rest).Pairwise
        (fun a b => a.target_offset ≠ b.target_offset) :=
      hd'.imp_of_mem (fun {a b} haa hbb hab =>
        targetDisjoint_ne hab (hpos' a haa) (hpos' b hbb))
    rw [sortByTarget_eq_of_perm hpermFull hne]

/-! ## Claims C1-C4: `add_part` -/

/-- C1 (code bug): the extent-builder invariant fails.  Adding the extent
`(disk.img, length 1024, target 0)` and then the extent
`(overlay, length 512, target 0)` to a fresh builder with sector size 512
are two successful `add_part` calls (sources valid, both extents
sector-aligned), yet the resulting `disk_parts` list keeps both extents,
whose half-open target ranges `[0, 1024)` and `[0, 512)` overlap — the
merge loop has no branch for an existing extent that starts at the new
extent's offset and extends past its end. -/
theorem c1_add_part_overlap_invariant_fails :
    runAdds (fun _ => true) 512
      [⟨some "disk.img", 1024, 0, 0⟩, ⟨some "overlay", 512, 0, 0⟩]
      = .ok [⟨some "disk.img", 1024, 0, 0⟩, ⟨some "overlay", 512, 0, 0⟩]
    ∧ ¬ pairwiseDisjoint
      [⟨some "disk.img", 1024, 0, 0⟩, ⟨some "overlay", 512, 0, 0⟩] :=
  ⟨rfl, by decide⟩

/-- C2 (code bug): in the head-overlap branch the code advances the
surviving extent by `p_end − new_end` instead of the overlap
`new_end − p.target_offset`.  With `p = (b, target 5120, length 10240)`
and `new = (a, target 0, length 12800)` (sector size 512), `p` survives as
`(b, target 7680, source 2560, length 7680)` although the claim's overlap
arithmetic predicts `(b, target 12800, source 7680, length 2560)`. -/
theorem c2_add_part_head_overlap_wrong_shift :
    runAdds (fun _ => true) 512
      [⟨some "b", 10240, 0, 5120⟩, ⟨some "a", 12800, 0, 0⟩]
      = .ok [⟨some "a", 12800, 0, 0⟩, ⟨some "b", 7680, 2560, 7680⟩]
    ∧ (⟨some "b", 7680, 2560, 7680⟩ : DiskPart) ≠ ⟨some "b", 2560, 7680, 12800⟩ :=
  ⟨rfl, by decide⟩

/-- C3 (code bug): a sector-aligned extent with a `None` source file, which
the claim (and the `Optional[Path]` dataclass plus the zero-fill handling
in `VmdkBuilder.write`) says must be accepted as a zero region, instead
makes `add_part` evaluate `None.is_file()` and crash with
`AttributeError` — neither success nor `InvalidDiskPartError`. -/
theorem c3_add_part_null_source_crashes :
    addPart (fun _ => true) 512 [] ⟨none, 512, 0, 0⟩ = .error .attributeError
    ∧ (∀ msg, AddPartError.attributeError ≠ AddPartError.invalidDiskPart msg) :=
  ⟨rfl, fun _ h => AddPartError.noConfusion h⟩

/-- C4 counterexample: inserting the overlapping valid extents
`A = (img, target 0, length 12800)` and `B = (plain, target 5120,
length 10240)` in the two orders yields extent lists that map target
offset 5120 to different sources (`plain` at 0 versus `img` at 5120), so
insertion order is not irrelevant on overlapping sequences. -/
theorem c4_reverse_insertion_differs :
    runAdds (fun _ => true) 512
      [⟨some "img", 12800, 0, 0⟩, ⟨some "plain", 10240, 0, 5120⟩]
      = .ok [⟨some "img", 5120, 0, 0⟩, ⟨some "plain", 10240, 0, 5120⟩]
    ∧ runAdds (fun _ => true) 512
      [⟨some "plain", 10240, 0, 5120⟩, ⟨some "img", 12800, 0, 0⟩]
      = .ok [⟨some "img", 12800, 0, 0⟩, ⟨some "plain", 7680, 2560, 7680⟩]
    ∧ denoteAt [⟨some "img", 5120, 0, 0⟩, ⟨some "plain", 10240, 0, 5120⟩] 5120
      ≠ denoteAt [⟨some "img", 12800, 0, 0⟩, ⟨some "plain", 7680, 2560, 7680⟩] 5120 :=
  ⟨rfl, rfl, by decide⟩

/-- C4 (amended): for every finite sequence of valid (existing source,
sector-aligned, positive-length) extents whose target ranges are pairwise
non-overlapping, inserting them via `add_part` into a fresh builder in the
given order and in reverse order yields the very same extent list — hence
the same total mapping from target offsets to source bytes. -/
theorem c4_amended_reverse_insertion_eq (fs : String → Bool) (ss : Int)
    (l : List DiskPart)
    (hv : ∀ p ∈ l, validPart fs ss p)
    (hpos : ∀ p ∈ l, 0 < p.length)
    (hd : l.Pairwise targetDisjoint) :
    runAdds fs ss l.reverse = runAdds fs ss l := by
  have hsymm : ∀ {x y : DiskPart}, targetDisjoint x y → targetDisjoint y x :=
    fun h => targetDisjoint_symm h
  have hdrev : l.reverse.Pairwise targetDisjoint :=
    List.pairwise_reverse.mpr (hd.imp (fun h => hsymm h))
  have h1 : runAdds fs ss l = .ok (sortByTarget l) := by
    have := foldlM_addPart_disjoint fs ss l [] hv
      (by simpa using hpos) (by simpa using hd) List.Pairwise.nil
    simpa [runAdds] using this
  have h2 : runAdds fs ss l.reverse = .ok (sortByTarget l.reverse) := by
    have := foldlM_addPart_disjoint fs ss l.reverse []
      (fun p hp => hv p (List.mem_reverse.mp hp))
      (by simpa using fun p hp => hpos p (List.mem_reverse.mp hp))
      (by simpa using hdrev) List.Pairwise.nil
    simpa [runAdds] using this
  have hne : l.reverse.Pairwise (fun a b => a.target_offset ≠ b.target_offset) :=
    hdrev.imp_of_mem (fun {a b} ha hb hab =>
      targetDisjoint_ne hab (hpos a (List.mem_reverse.mp ha))
        (hpos b (List.mem_reverse.mp hb)))
  rw [h1, h2, sortByTarget_eq_of_perm (List.reverse_perm l) hne]

/-- Witness for `c4_amended_reverse_insertion_eq` at a concrete two-extent
sequence. -/
theorem c4_amended_reverse_insertion_eq_witness :
    runAdds (fun _ => true) 512
      ([⟨some "a", 512, 0, 0⟩, ⟨some "b", 512, 0, 1024⟩] : List DiskPart).reverse
      = runAdds (fun _ => true) 512
        [⟨some "a", 512, 0, 0⟩, ⟨some "b", 512, 0, 1024⟩] :=
  c4_amended_reverse_insertion_eq (fun _ => true) 512 _
    (by
      intro p hp
      rcases List.mem_cons.mp hp with rfl | hp
      · exact ⟨⟨"a", rfl, rfl⟩, by decide, by decide⟩
      · rcases List.mem_cons.mp hp with rfl | hp
        · exact ⟨⟨"b", rfl, rfl⟩, by decide, by decide⟩
        · cases hp)
    (by decide) (by decide)

/-! ## Claim C5: first-truthy dispatch -/

/-- C5 counterexample: with a first plugin whose `mount` hook returns the
empty volume list (non-null and a legal hook value — `LvmMountPlugin.mount`
returns it for a volume group with no logical volumes) and a second
returning a path, `dispatch_until_result` skips the first result because
it is falsy, invokes the second plugin, and returns the path — not the
first non-null result, and not with dispatch stopping after it. -/
theorem c5_dispatch_skips_empty_list :
    dispatchUntilResult [.vols [], .path "/mnt/p"] = (.path "/mnt/p", 2)
    ∧ MountResult.vols [] ≠ .noResult :=
  ⟨rfl, by decide⟩

/-- C5 (amended): `dispatch_until_result` returns the first *truthy* result
(non-null, and non-empty in the case of a volume list) in plugin order,
returning Python `None` when no hook produced a truthy result; it invokes
exactly the hooks up to and including the producing one (all hooks when
none produces a truthy result). -/
theorem c5_amended_first_truthy (rs : List MountResult) :
    (dispatchUntilResult rs).1 = ((rs.find? MountResult.truthy).getD .noResult)
    ∧ (dispatchUntilResult rs).2
      = (rs.takeWhile (fun r => !r.truthy)).length
        + (if (rs.find? MountResult.truthy).isSome then 1 else 0) := by
  induction rs with
  | nil => simp [dispatchUntilResult]
  | cons r rs ih =>
    by_cases h : r.truthy
    · simp [dispatchUntilResult, h, List.find?_cons_of_pos, List.takeWhile_cons]
    · have hf : List.find? MountResult.truthy (r :: rs) = List.find? MountResult.truthy rs :=
        List.find?_cons_of_neg _ (by simpa using h)
      refine ⟨?_, ?_⟩
      · simp [dispatchUntilResult, h, hf, ih.1]
      · simp only [dispatchUntilResult, h, if_false, hf, List.takeWhile_cons,
          Bool.not_eq_true', Bool.not_true, ih.2]
        simp [h]
        omega

/-! ## Claim C9: XTS key combination -/

/-- C9 counterexample: with a single supplied key `[0x41]`, the claim
requires the pair `k1 = k2 = [0x41]` to contribute the doubled key
`[0x41] ++ [0x41]`, but `itertools.permutations(master_keys, 2)` yields
only pairs of distinct set elements, so the doubled key is absent from
the final candidate set. -/
theorem c9_equal_pair_missing :
    ([65, 65] : List Nat) ∉ combineXtsKeys {[65]}
    ∧ ([65] : List Nat) ∈ combineXtsKeys {[65]}
    ∧ ([65] : List Nat) ++ [65] = [65, 65] := by
  refine ⟨by decide, by decide, rfl⟩

/-- C9 (amended): when the option is on, the final candidate set contains,
for every ordered pair of *distinct* supplied keys of equal length, their
concatenation, in addition to every directly supplied key. -/
theorem c9_amended_distinct_pairs (ks : Finset (List Nat)) (k1 k2 : List Nat)
    (h1 : k1 ∈ ks) (h2 : k2 ∈ ks) (hne : k1 ≠ k2)
    (hlen : k1.length = k2.length) :
    k1 ++ k2 ∈ combineXtsKeys ks ∧ ∀ k ∈ ks, k ∈ combineXtsKeys ks := by
  constructor
  · exact Finset.mem_union_right _ (Finset.mem_image.mpr
      ⟨(k1, k2), Finset.mem_filter.mpr
        ⟨Finset.mem_product.mpr ⟨h1, h2⟩, hne, hlen⟩, rfl⟩)
  · intro k hk
    exact Finset.mem_union_left _ hk

/-- Witness for `c9_amended_distinct_pairs` on the key set `{[1], [2]}`. -/
theorem c9_amended_distinct_pairs_witness :
    ([1] : List Nat) ++ [2] ∈ combineXtsKeys {[1], [2]}
    ∧ ∀ k ∈ ({[1], [2]} : Finset (List Nat)), k ∈ combineXtsKeys {[1], [2]} :=
  c9_amended_distinct_pairs {[1], [2]} [1] [2]
    (by decide) (by decide) (by decide) (by decide)

/-! ## Claim C6: teardown ordering -/

theorem insertDescBy_perm (key : α → Nat) (a : α) (l : List α) :
    List.Perm (insertDescBy key a l) (a :: l) := by
  induction l with
  | nil => exact List.Perm.refl _
  | cons q qs ih =>
    simp only [insertDescBy]
    split
    · exact (ih.cons q).trans (List.Perm.swap a q qs)
    · exact List.Perm.refl _

theorem mem_insertDescBy {key : α → Nat} {x a : α} {l : List α} :
    x ∈ insertDescBy key a l ↔ x = a ∨ x ∈ l := by
  rw [(insertDescBy_perm key a l).mem_iff, List.mem_cons]

theorem insertDescBy_pairwise (key : α → Nat) (a : α) {l : List α}
    (hl : l.Pairwise (fun x y => key y ≤ key x)) :
    (insertDescBy key a l).Pairwise (fun x y => key y ≤ key x) := by
  induction l with
  | nil => exact List.pairwise_singleton _ _
  | cons q qs ih =>
    rcases List.pairwise_cons.mp hl with ⟨hq, hqs⟩
    simp only [insertDescBy]
    split
    · rename_i hlt
      refine List.pairwise_cons.mpr ⟨?_, ih hqs⟩
      intro x hx
      rcases mem_insertDescBy.mp hx with rfl | hx
      · exact le_of_lt hlt
      · exact hq x hx
    · rename_i hnlt
      refine List.pairwise_cons.mpr ⟨?_, hl⟩
      intro x hx
      rcases List.mem_cons.mp hx with rfl | hx
      · exact le_of_not_lt hnlt
      · exact le_trans (hq x hx) (le_of_not_lt hnlt)

theorem sortDescBy_perm (key : α → Nat) (l : List α) :
    List.Perm (sortDescBy key l) l := by
  induction l with
  | nil => rfl
  | cons a rest ih =>
    exact (insertDescBy_perm key a (sortDescBy key rest)).trans (ih.cons a)

theorem sortDescBy_pairwise (key : α → Nat) (l : List α) :
    (sortDescBy key l).Pairwise (fun x y => key y ≤ key x) := by
  induction l with
  | nil => exact List.Pairwise.nil
  | cons a rest ih => exact insertDescBy_pairwise key a ih

/-- Every element of a `groupRuns` group has the group's key. -/
theorem groupRuns_mem_key (key : α → Nat) :
    ∀ {l : List α} {g : Nat × List α},
      g ∈ groupRuns key l → ∀ x ∈ g.2, key x = g.1 := by
  intro l
  induction l with
  | nil => intro g h; cases h
  | cons a rest ih =>
    intro g h x hx
    cases hr : groupRuns key rest with
    | nil =>
      rw [groupRuns, hr] at h
      rcases List.mem_singleton.mp h with rfl
      rcases List.mem_singleton.mp hx with rfl
      rfl
    | cons p gs =>
      obtain ⟨k2, g2⟩ := p
      simp only [groupRuns, hr] at h
      by_cases hak : key a = k2
      · rw [if_pos hak] at h
        rcases List.mem_cons.mp h with rfl | hmem
        · rcases List.mem_cons.mp hx with rfl | hx
          · exact hak
          · exact ih (g := (k2, g2)) (by rw [hr]; exact List.mem_cons_self _ gs) x hx
        · exact ih (by rw [hr]; exact List.mem_cons_of_mem _ hmem) x hx
      · rw [if_neg hak] at h
        rcases List.mem_cons.mp h with rfl | hmem
        · rcases List.mem_singleton.mp hx with rfl
          rfl
        · exact ih (by rw [hr]; exact hmem) x hx

/-- Every `groupRuns` group key is the key of some list element. -/
theorem groupRuns_exists_key (key : α → Nat) :
    ∀ {l : List α} {g : Nat × List α},
      g ∈ groupRuns key l → ∃ x ∈ l, key x = g.1 := by
  intro l
  induction l with
  | nil => intro g h; cases h
  | cons a rest ih =>
    intro g h
    cases hr : groupRuns key rest with
    | nil =>
      rw [groupRuns, hr] at h
      rcases List.mem_singleton.mp h with rfl
      exact ⟨a, List.mem_cons_self a rest, rfl⟩
    | cons p gs =>
      obtain ⟨k2, g2⟩ := p
      simp only [groupRuns, hr] at h
      by_cases hak : key a = k2
      · rw [if_pos hak] at h
        rcases List.mem_cons.mp h with rfl | hmem
        · exact ⟨a, List.mem_cons_self a rest, hak⟩
        · obtain ⟨x, hx, hkx⟩ := ih (by rw [hr]; exact List.mem_cons_of_mem _ hmem)
          exact ⟨x, List.mem_cons_of_mem a hx, hkx⟩
      · rw [if_neg hak] at h
        rcases List.mem_cons.mp h with rfl | hmem
        · exact ⟨a, List.mem_cons_self a rest, rfl⟩
        · obtain ⟨x, hx, hkx⟩ := ih (by rw [hr]; exact hmem)
          exact ⟨x, List.mem_cons_of_mem a hx, hkx⟩

/-- On a descending-sorted list, `groupRuns` produces groups with
non-increasing keys. -/
theorem groupRuns_pairwise (key : α → Nat) :
    ∀ {l : List α}, l.Pairwise (fun x y => key y ≤ key x) →
      (groupRuns key l).Pairwise (fun g1 g2 => g2.1 ≤ g1.1) := by
  intro l
  induction l with
  | nil => intro _; exact List.Pairwise.nil
  | cons a rest ih =>
    intro hp
    rcases List.pairwise_cons.mp hp with ⟨ha, hrest⟩
    have IH := ih hrest
    cases hr : groupRuns key rest with
    | nil =>
      rw [groupRuns, hr]
      exact List.pairwise_singleton _ _
    | cons p gs =>
      obtain ⟨k2, gr⟩ := p
      rw [hr] at IH
      by_cases hak : key a = k2
      · simp only [groupRuns, hr]
        rw [if_pos hak]
        exact List.pairwise_cons.mpr
          ⟨(List.pairwise_cons.mp IH).1, (List.pairwise_cons.mp IH).2⟩
      · simp only [groupRuns, hr]
        rw [if_neg hak]
        refine List.pairwise_cons.mpr ⟨?_, IH⟩
        intro g2 hg2
        obtain ⟨x, hx, hkx⟩ := groupRuns_exists_key key (l := rest)
          (g := g2) (by rw [hr]; exact hg2)
        simpa [← hkx] using ha x hx

/-- All teardown dispatches produced from one depth group are for volumes
at the group's depth. -/
theorem unmountEvents_group_depth {volumes : List VolNode}
    {g : Nat × List VolNode} (hg : g ∈ groupbyDesc volumeDepth volumes) :
    ∀ e ∈ (g.2.filter (·.hasFs)).map UnmountEvent.unmountFilesystem ++
          (g.2.filter (·.hasFlat)).map UnmountEvent.unmountVolume,
      volumeDepth e.vol = g.1 := by
  intro e he
  rcases List.mem_append.mp he with he | he <;>
  · obtain ⟨v, hv, rfl⟩ := List.mem_map.mp he
    exact groupRuns_mem_key volumeDepth hg v (List.mem_of_mem_filter hv)

/-- C6 (confirmed): the dispatch sequence of
`unmount_partitions_and_filesystems` is ordered by non-increasing volume
depth: every `unmount_filesystem` and `unmount_volume` invocation for a
volume at depth `d` happens before any invocation for a volume at a
smaller depth, so every child volume is unmounted strictly before its
parent. -/
theorem c6_unmount_depth_order (volumes : List VolNode) :
    (unmountEvents volumes).Pairwise
      (fun a b => volumeDepth b.vol ≤ volumeDepth a.vol) := by
  rw [unmountEvents]
  refine List.pairwise_flatMap.mpr ⟨?_, ?_⟩
  · intro g hg
    refine List.pairwise_of_forall_mem_list ?_
    intro x hx y hy
    rw [unmountEvents_group_depth hg x hx, unmountEvents_group_depth hg y hy]
  · have hsorted := sortDescBy_pairwise volumeDepth volumes
    have hgroups := groupRuns_pairwise volumeDepth hsorted
    refine hgroups.imp_of_mem ?_
    intro g1 g2 hg1 hg2 h12 x hx y hy
    rw [unmountEvents_group_depth hg1 x hx, unmountEvents_group_depth hg2 y hy]
    exact h12

/-! ## Claim C7: VeraCrypt header round trip -/

theorem beBytes_length : ∀ (w n : Nat), (beBytes w n).length = w
  | 0, _ => rfl
  | w + 1, n => by simp [beBytes, beBytes_length w]

theorem beVal_append (l : List Nat) (b : Nat) :
    beVal (l ++ [b]) = beVal l * 256 + b := by
  simp [beVal, List.foldl_append]

theorem beVal_lt : ∀ {l : List Nat}, (∀ b ∈ l, b < 256) →
    beVal l < 256 ^ l.length := by
  intro l
  induction l using List.reverseRecOn with
  | nil => intro _; simp [beVal]
  | append_singleton l b ih =>
    intro h
    have hb : b < 256 := h b (by simp)
    have hl : beVal l < 256 ^ l.length := ih (fun y hy => h y (by simp [hy]))
    rw [beVal_append]
    have hlen : (l ++ [b]).length = l.length + 1 := by simp
    rw [hlen]
    calc beVal l * 256 + b < (beVal l + 1) * 256 := by omega
      _ ≤ 256 ^ l.length * 256 := Nat.mul_le_mul_right _ hl
      _ = 256 ^ (l.length + 1) := (pow_succ 256 l.length).symm

theorem beBytes_beVal : ∀ {l : List Nat}, (∀ b ∈ l, b < 256) →
    beBytes l.length (beVal l) = l := by
  intro l
  induction l using List.reverseRecOn with
  | nil => intro _; rfl
  | append_singleton l b ih =>
    intro h
    have hb : b < 256 := h b (by simp)
    have hlen : (l ++ [b]).length = l.length + 1 := by simp
    rw [beVal_append, hlen]
    simp only [beBytes]
    have hdiv : (beVal l * 256 + b) / 256 = beVal l := by omega
    have hmod : (beVal l * 256 + b) % 256 = b := by omega
    rw [hdiv, hmod, ih (fun y hy => h y (by simp [hy]))]

theorem packBytes_of_length {b : List Nat} {size : Nat} (h : b.length = size) :
    packBytes size b = b := by
  simp [packBytes, h, List.take_of_length_le (le_of_eq h)]

/-- Glue two adjacent take/drop segments of a list. -/
theorem seg_glue (x : List Nat) (a n k m s : Nat) (h1 : a + n = k)
    (h2 : n + m = s) :
    (x.drop a).take n ++ (x.drop k).take m = (x.drop a).take s := by
  subst h1
  subst h2
  rw [List.take_add, List.drop_drop]

/-- C7 (confirmed): for every byte string `x` of the VeraCrypt header's
packed size (448 bytes, format `>4sHHI16sQQQQII120sI256s`),
`VeraCryptHeader.unpack(x)` succeeds and packing the result returns `x`
unchanged. -/
theorem c7_veracrypt_header_roundtrip (x : List Nat) (hlen : x.length = 448)
    (hb : ∀ b ∈ x, b < 256) :
    ∃ h, VeraCryptHeader.unpack x = some h
      ∧ VeraCryptHeader.pack h = some x := by
  have hseg : ∀ a n : Nat, a + n ≤ 448 → ((x.drop a).take n).length = n := by
    intro a n han
    rw [List.length_take, List.length_drop, hlen]
    omega
  have hsub : ∀ a n : Nat, ∀ b ∈ (x.drop a).take n, b < 256 := by
    intro a n b hbm
    exact hb b (List.drop_subset a x (List.take_subset n _ hbm))
  have hval : ∀ a n : Nat, a + n ≤ 448 → beVal ((x.drop a).take n) < 256 ^ n := by
    intro a n han
    have h1 := beVal_lt (hsub a n)
    rwa [hseg a n han] at h1
  have hbe : ∀ a n : Nat, a + n ≤ 448 →
      beBytes n (beVal ((x.drop a).take n)) = (x.drop a).take n := by
    intro a n han
    have h1 := beBytes_beVal (hsub a n)
    rwa [hseg a n han] at h1
  refine ⟨{
      signature := (x.drop 0).take 4
      header_format_version := beVal ((x.drop 4).take 2)
      min_program_version := beVal ((x.drop 6).take 2)
      checksum_master_keys := beVal ((x.drop 8).take 4)
      reserved1 := (x.drop 12).take 16
      size_hidden_volume := beVal ((x.drop 28).take 8)
      size_volume := beVal ((x.drop 36).take 8)
      offset := beVal ((x.drop 44).take 8)
      size_encrypted := beVal ((x.drop 52).take 8)
      flags := beVal ((x.drop 60).take 4)
      sector_size := beVal ((x.drop 64).take 4)
      reserved2 := (x.drop 68).take 120
      checksum_header_fields := beVal ((x.drop 188).take 4)
      master_keys := (x.drop 192).take 256 }, ?_, ?_⟩
  · rw [VeraCryptHeader.unpack, if_pos hlen]
  · have h16 : (256 : Nat) ^ 2 = 2 ^ 16 := by norm_num
    have h32 : (256 : Nat) ^ 4 = 2 ^ 32 := by norm_num
    have h64 : (256 : Nat) ^ 8 = 2 ^ 64 := by norm_num
    simp only [VeraCryptHeader.pack]
    rw [if_pos]
    · refine congrArg some ?_
      rw [packBytes_of_length (hseg 0 4 (by norm_num)),
        packBytes_of_length (hseg 12 16 (by norm_num)),
        packBytes_of_length (hseg 68 120 (by norm_num)),
        packBytes_of_length (hseg 192 256 (by norm_num)),
        hbe 4 2 (by norm_num), hbe 6 2 (by norm_num), hbe 8 4 (by norm_num),
        hbe 28 8 (by norm_num), hbe 36 8 (by norm_num), hbe 44 8 (by norm_num),
        hbe 52 8 (by norm_num), hbe 60 4 (by norm_num), hbe 64 4 (by norm_num),
        hbe 188 4 (by norm_num)]
      rw [seg_glue x 0 4 4 2 6 (by norm_num) (by norm_num),
        seg_glue x 0 6 6 2 8 (by norm_num) (by norm_num),
        seg_glue x 0 8 8 4 12 (by norm_num) (by norm_num),
        seg_glue x 0 12 12 16 28 (by norm_num) (by norm_num),
        seg_glue x 0 28 28 8 36 (by norm_num) (by norm_num),
        seg_glue x 0 36 36 8 44 (by norm_num) (by norm_num),
        seg_glue x 0 44 44 8 52 (by norm_num) (by norm_num),
        seg_glue x 0 52 52 8 60 (by norm_num) (by norm_num),
        seg_glue x 0 60 60 4 64 (by norm_num) (by norm_num),
        seg_glue x 0 64 64 4 68 (by norm_num) (by norm_num),
        seg_glue x 0 68 68 120 188 (by norm_num) (by norm_num),
        seg_glue x 0 188 188 4 192 (by norm_num) (by norm_num),
        seg_glue x 0 192 192 256 448 (by norm_num) (by norm_num)]
      rw [List.drop_zero]
      exact List.take_of_length_le (le_of_eq hlen)
    · exact ⟨h16 ▸ hval 4 2 (by norm_num), h16 ▸ hval 6 2 (by norm_num),
        h32 ▸ hval 8 4 (by norm_num), h64 ▸ hval 28 8 (by norm_num),
        h64 ▸ hval 36 8 (by norm_num), h64 ▸ hval 44 8 (by norm_num),
        h64 ▸ hval 52 8 (by norm_num), h32 ▸ hval 60 4 (by norm_num),
        h32 ▸ hval 64 4 (by norm_num), h32 ▸ hval 188 4 (by norm_num)⟩

/-- Witness for `c7_veracrypt_header_roundtrip` on the all-zero 448-byte
string. -/
theorem c7_veracrypt_header_roundtrip_witness :
    (List.replicate 448 0).length = 448
    ∧ ∃ h, VeraCryptHeader.unpack (List.replicate 448 0) = some h
      ∧ VeraCryptHeader.pack h = some (List.replicate 448 0) :=
  ⟨by rw [List.length_replicate], c7_veracrypt_header_roundtrip _
    (by rw [List.length_replicate])
    (by intro b hb; rw [List.eq_of_mem_replicate hb]; norm_num)⟩

/-! ## Claim C8: `/etc/shadow` password reset -/

/-- C8 counterexample: a shadow line with an *empty* password field
(`root::18000:0:99999:7:::`, fields `["root", "", ...]`), which the claim
says must be left unchanged, has its password field overwritten with the
crypt hash by the code (the guard `e[1] not in ['!', '*']` does not test
non-emptiness).  `"H"` stands for the (never empty) crypt string returned
by `hash_password`. -/
theorem c8_empty_password_replaced :
    shadowModifyLines "H" [["root", "", "18000", "0", "99999", "7", "", "", ""]]
      = [["root", "H", "18000", "0", "99999", "7", "", "", ""]]
    ∧ [["root", "H", "18000", "0", "99999", "7", "", "", ""]]
      ≠ [["root", "", "18000", "0", "99999", "7", "", "", ""]] :=
  ⟨rfl, by decide⟩

/-- C8 (amended): for every shadow line, split into `':'`-separated
fields, the plugin replaces the password field (index 1) exactly when the
line has at least two fields and the password field is neither `"!"` nor
`"*"` — including when it is empty — and leaves every other field (and
lines with fewer than two fields) unchanged.  `shadowModifyLines` applies
this transformation to every line of the file. -/
theorem c8_amended_field_replacement (hash : String) (e : List String) :
    (shadowProcessEntry hash e).length = e.length
    ∧ (∀ i, i ≠ 1 → (shadowProcessEntry hash e)[i]? = e[i]?)
    ∧ ((shadowProcessEntry hash e)[1]? =
        match e[1]? with
        | some p => if p ≠ "!" ∧ p ≠ "*" then some hash else some p
        | none => none) := by
  match e with
  | [] => exact ⟨rfl, fun i _ => rfl, rfl⟩
  | [u] => exact ⟨rfl, fun i _ => rfl, rfl⟩
  | u :: p :: rest =>
    by_cases hp : p ≠ "!" ∧ p ≠ "*"
    · refine ⟨by simp [shadowProcessEntry, hp], ?_, ?_⟩
      · intro i hi
        match i with
        | 0 => simp [shadowProcessEntry, hp]
        | 1 => exact absurd rfl hi
        | n + 2 => simp [shadowProcessEntry, hp]
      · simp [shadowProcessEntry, hp]
    · refine ⟨by simp [shadowProcessEntry, hp], ?_, ?_⟩
      · intro i hi
        match i with
        | 0 => simp [shadowProcessEntry, hp]
        | 1 => exact absurd rfl hi
        | n + 2 => simp [shadowProcessEntry, hp]
      · simp [shadowProcessEntry, hp]

/-! ## Claim C10: read-only disks get no modify hooks -/

theorem mountFilesystemsTrace_readonly (resp : Nat → MountOutcome) :
    ∀ (fuel idx : Nat) (vols : List Bool),
      ∀ h ∈ mountFilesystemsTrace true resp fuel idx vols,
        h = Hook.mountHook ∨ h = Hook.mountedFilesystem ∨ h = Hook.mountedVolume := by
  intro fuel
  induction fuel with
  | zero => intro idx vols h hmem; cases hmem
  | succ fuel ih =>
    intro idx vols h hmem
    rw [mountFilesystemsTrace] at hmem
    by_cases hidx : idx < vols.length
    · rw [dif_pos hidx] at hmem
      by_cases hflat : vols.get ⟨idx, hidx⟩
      · rw [if_pos hflat] at hmem
        cases hresp : resp idx with
        | fsPath =>
          rw [hresp] at hmem
          rcases List.mem_append.mp hmem with hmem | hmem
          · simp at hmem
            rcases hmem with rfl | rfl
            · exact Or.inl rfl
            · exact Or.inr (Or.inl rfl)
          · exact ih (idx + 1) vols h hmem
        | children cs =>
          rw [hresp] at hmem
          rcases List.mem_append.mp hmem with hmem | hmem
          · rcases List.mem_cons.mp hmem with rfl | hmem
            · exact Or.inl rfl
            · obtain ⟨c, _, hc⟩ := List.mem_flatMap.mp hmem
              simp at hc
              rcases hc with rfl
              exact Or.inr (Or.inr rfl)
          · exact ih (idx + 1) (vols ++ cs) h hmem
        | noOutcome =>
          rw [hresp] at hmem
          rcases List.mem_cons.mp hmem with rfl | hmem
          · exact Or.inl rfl
          · exact ih (idx + 1) vols h hmem
      · rw [if_neg hflat] at hmem
        exact ih (idx + 1) vols h hmem
    · rw [dif_neg hidx] at hmem
      cases hmem

/-- C10 (confirmed): on a disk whose `readonly` flag is true, the whole
analysis pipeline — `mount_disk`, partition mounting via
`_add_partition_info`, and the `_mount_filesystems` walk, for any plugin
`mount` outcomes, any number of partitions and any loop bound — never
dispatches `modify_disk`, `modify_volume` or `modify_filesystem`
(teardown, modelled by `unmountEvents`, dispatches only
`unmount_filesystem` and `unmount_volume` by construction). -/
theorem c10_readonly_no_modify (resp : Nat → MountOutcome)
    (numPartitions fuel : Nat) :
    ∀ h ∈ diskAnalysisTrace true resp numPartitions fuel,
      h ≠ Hook.modifyDisk ∧ h ≠ Hook.modifyVolume ∧ h ≠ Hook.modifyFilesystem := by
  intro h hmem
  rw [diskAnalysisTrace] at hmem
  rcases List.mem_append.mp hmem with hmem | hmem
  · rcases List.mem_append.mp hmem with hmem | hmem
    · simp [mountDiskTrace] at hmem
      rcases hmem with rfl
      exact ⟨fun hc => Hook.noConfusion hc, fun hc => Hook.noConfusion hc,
        fun hc => Hook.noConfusion hc⟩
    · rw [mountPartitionsTrace] at hmem
      obtain ⟨n, _, hn⟩ := List.mem_flatMap.mp hmem
      simp at hn
      rcases hn with rfl
      exact ⟨fun hc => Hook.noConfusion hc, fun hc => Hook.noConfusion hc,
        fun hc => Hook.noConfusion hc⟩
  · rcases mountFilesystemsTrace_readonly resp fuel 0
        (List.replicate numPartitions true) h hmem with rfl | rfl | rfl
    · exact ⟨fun hc => Hook.noConfusion hc, fun hc => Hook.noConfusion hc,
        fun hc => Hook.noConfusion hc⟩
    · exact ⟨fun hc => Hook.noConfusion hc, fun hc => Hook.noConfusion hc,
        fun hc => Hook.noConfusion hc⟩
    · exact ⟨fun hc => Hook.noConfusion hc, fun hc => Hook.noConfusion hc,
        fun hc => Hook.noConfusion hc⟩

/-- Witness for `c10_readonly_no_modify` on a one-partition read-only disk
whose single volume mounts as a filesystem. -/
theorem c10_readonly_no_modify_witness :
    Hook.mountedDisk ∈ diskAnalysisTrace true (fun _ => MountOutcome.fsPath) 1 1
    ∧ Hook.mountedDisk ≠ Hook.modifyDisk
    ∧ Hook.mountedDisk ≠ Hook.modifyVolume
    ∧ Hook.mountedDisk ≠ Hook.modifyFilesystem :=
  ⟨by decide,
    c10_readonly_no_modify (fun _ => MountOutcome.fsPath) 1 1
      Hook.mountedDisk (by decide)⟩

end DiskVm
